import Mathlib

/-!
# Verification of the @ickb/utils transaction-balancing and asset-accounting core

This file gives a shallow embedding in Lean 4 of the subsystem specified for
the `@ickb/utils` TypeScript repository and proves (or refutes) the frozen
claims about it.

Embedding conventions:
* `bigint` values are embedded as `Nat` where the source only ever holds
  non-negative quantities (amounts, capacities) and as `Int` where signs
  matter (epoch components).  JavaScript `bigint` division and remainder
  truncate toward zero, which is `Int.tdiv` / `Int.tmod`.
* Hex data strings (`ccc.Hex`) are embedded as byte lists (`List Nat`); the
  length of the hex string `"0x…"` holding `n` bytes is `2 + 2 * n`, written
  `hexLength`.
* Asynchronous I/O (cell search, header fetch, input resolution) is embedded
  by passing the data the collaborators would return as explicit arguments:
  transaction inputs are already resolved to their cells, and the cell stream
  that `findUdts` would produce from the client is the list `results`.
* External collaborators from `@ckb-ccc/core` that the code calls are
  embedded from the specification's description of them (16-byte
  little-endian token amounts, etc.) and are marked as such in their
  doc comments.
* Throwing code is embedded with `Except TxError`.
-/

/-- A CKB script (`ccc.Script`): code hash, hash type and args.  The concrete
byte contents are irrelevant to the claims, so the fields are embedded as
numbers/byte lists; script equality (`Script.eq` in the source) is structural
equality. -/
structure Script where
  codeHash : Nat
  hashType : Nat
  args : List Nat
deriving DecidableEq

/-- Errors thrown by the embedded code.  `insufficientCoin` carries the extra
amount required, the UDT type script, the token symbol and its decimals, as
`ErrorTransactionInsufficientCoin` does; every other `throw new Error(msg)`
site is embedded as `message msg`. -/
inductive TxError where
  | insufficientCoin (amount : Nat) («type» : Script) (symbol : String) (decimals : Nat) : TxError
  | message (msg : String) : TxError
deriving DecidableEq

/-- A cell output (`ccc.CellOutput`): capacity, lock script and optional type
script. -/
structure CellOutput where
  capacity : Nat
  lock : Script
  «type» : Option Script
deriving DecidableEq

/-- A cell (`ccc.Cell`) as the UDT code uses it: its output fields and its
output data.  The out-point is irrelevant to the claims and omitted. -/
structure Cell where
  cellOutput : CellOutput
  outputData : List Nat
deriving DecidableEq

/-- Length of the hex string representing a byte list: `"0x"` plus two hex
characters per byte.  `cell.outputData.length` in the source is this hex
string length. -/
def hexLength (data : List Nat) : Nat :=
  2 + 2 * data.length

/-- Little-endian decoding of a byte list into a number. -/
def leDecode : List Nat → Nat
  | [] => 0
  | b :: bs => b % 256 + 256 * leDecode bs

/-- Embeds `ccc.udtBalanceFrom`, external to this repository.  Modelled from
the spec: token amounts are fixed-width little-endian unsigned integers of
16-byte width decoded from the start of the cell data, so the function
decodes the first (up to) 16 bytes of the data little-endian. -/
def udtBalanceFrom (data : List Nat) : Nat :=
  leDecode (data.take 16)

/-- Embeds `mol.Uint128LE.encode`, external to this repository.  Modelled
from the spec: a 16-byte little-endian fixed-width unsigned integer. -/
def uint128LEEncode (n : Nat) : List Nat :=
  (List.range 16).map (fun i => n / 256 ^ i % 256)

/-- The transaction fields that the UDT accounting reads and writes
(`SmartTransaction` restricted to inputs, outputs and outputs data).  Inputs
are embedded already resolved to their full cells, which is the state
`input.completeExtraInfos(client)` establishes. -/
structure UdtTx where
  inputs : List Cell
  outputs : List CellOutput
  outputsData : List (List Nat)
deriving DecidableEq

/-- The `UdtManager` configuration: the UDT type script and display
metadata.  The cell-dependency list only feeds `tx.addCellDeps`, which no
claim mentions, so it is omitted. -/
structure UdtManager where
  script : Script
  name : String
  symbol : String
  decimals : Nat
deriving DecidableEq

/-- `UdtManager.isUdt`: a cell holds this UDT when its type script equals the
manager's script and its output data hex string has length at least 34
(a full 16-byte amount). -/
def UdtManager.isUdt (m : UdtManager) (cell : Cell) : Bool :=
  cell.cellOutput.type == some m.script && 34 ≤ hexLength cell.outputData

/-- Accumulator step of `UdtManager.getInputsUdtBalance`: walk the resolved
inputs left to right; a cell passing `isUdt` contributes its decoded token
amount and its capacity. -/
def getInputsUdtBalanceAux (m : UdtManager) : List Cell → Nat × Nat → Nat × Nat
  | [], acc => acc
  | cell :: rest, acc =>
    getInputsUdtBalanceAux m rest
      (if m.isUdt cell then
        (acc.1 + udtBalanceFrom cell.outputData, acc.2 + cell.cellOutput.capacity)
      else acc)

/-- `UdtManager.getInputsUdtBalance`: total UDT amount and total capacity in
the transaction's UDT inputs. -/
def UdtManager.getInputsUdtBalance (m : UdtManager) (tx : UdtTx) : Nat × Nat :=
  getInputsUdtBalanceAux m tx.inputs (0, 0)

/-- Accumulator step of `UdtManager.getOutputsUdtBalance`: walk the outputs
left to right with their index; an output whose type script equals the
manager's script contributes the token amount decoded from
`outputsData[i] ?? "0x"` and its capacity. -/
def getOutputsUdtBalanceAux (m : UdtManager) (data : List (List Nat)) :
    List CellOutput → Nat → Nat × Nat → Nat × Nat
  | [], _, acc => acc
  | o :: rest, i, acc =>
    getOutputsUdtBalanceAux m data rest (i + 1)
      (if o.type == some m.script then
        (acc.1 + udtBalanceFrom (data.getD i []), acc.2 + o.capacity)
      else acc)

/-- `UdtManager.getOutputsUdtBalance`: total UDT amount and total capacity in
the transaction's UDT outputs. -/
def UdtManager.getOutputsUdtBalance (m : UdtManager) (tx : UdtTx) : Nat × Nat :=
  getOutputsUdtBalanceAux m tx.outputsData tx.outputs 0 (0, 0)

/-- A classified UDT cell as yielded by `findUdts`: the cell together with
its capacity (`ckbValue`) and decoded token amount (`udtValue`). -/
structure UdtCell where
  cell : Cell
  ckbValue : Nat
  udtValue : Nat
deriving DecidableEq

/-- `UdtManager.findUdts`: the generator's per-cell filtering and
classification.  The client pagination, lock deduplication and per-lock
queries are collapsed into the single stream `results` of cells the client
would yield, in order; the generator's local re-validation (`isUdt`) is kept.
The exact-lock re-check is subsumed by taking `results` to be the cells of
the queried locks. -/
def UdtManager.findUdts (m : UdtManager) (results : List Cell) : List UdtCell :=
  (results.filter (fun c => m.isUdt c)).map
    (fun c => ⟨c, c.cellOutput.capacity, udtBalanceFrom c.outputData⟩)

/-- The cell-accumulation loop inside `completeUdt`: push each found cell,
add its `udtValue` and `ckbValue` to the running input totals, and stop
early when not compressing state and both totals have reached the output
targets.  Returns the collected cells and the final token/capacity totals. -/
def accumulateUdts (compressState : Bool) (outUdt outCap : Nat) :
    List UdtCell → Nat → Nat → List UdtCell × Nat × Nat
  | [], inUdt, inCap => ([], inUdt, inCap)
  | u :: rest, inUdt, inCap =>
    let inUdt' := inUdt + u.udtValue
    let inCap' := inCap + u.ckbValue
    if !compressState && outUdt ≤ inUdt' && outCap ≤ inCap' then
      ([u], inUdt', inCap')
    else
      let r := accumulateUdts compressState outUdt outCap rest inUdt' inCap'
      (u :: r.1, r.2)

/-- `UdtManager.addUdts` restricted to its effect on the transaction fields
embedded here: append every selected cell as an input.  (The source also
registers the manager's cell deps and the handler itself in the shared maps;
no claim mentions those effects.) -/
def UdtManager.addUdts (tx : UdtTx) (udts : List UdtCell) : UdtTx :=
  { tx with inputs := tx.inputs ++ udts.map (fun u => u.cell) }

/-- Embeds `ccc.Transaction.addOutput`, external to this repository: append
the output and its data.  The capacity that the external code computes for
the appended output is passed in explicitly as `chgCap`. -/
def UdtTx.addOutput (tx : UdtTx) (o : CellOutput) (data : List Nat) : UdtTx :=
  { tx with outputs := tx.outputs ++ [o], outputsData := tx.outputsData ++ [data] }

/-- Result of the balance-and-accumulate phase of `completeUdt`. -/
structure UdtCoreResult where
  txMid : UdtTx
  inUdt : Nat
  outUdt : Nat
  inAdded : Nat
deriving DecidableEq

/-- The first phase of `UdtManager.completeUdt`: compute input and output
balances and, when the input token total or the input capacity total is
short and `shouldAddInputs` is set, run the accumulation loop over the cells
found for the signer's locks and append them as inputs. -/
def completeUdtCore (m : UdtManager) (results : List Cell)
    (shouldAddInputs compressState : Bool) (tx : UdtTx) : UdtCoreResult :=
  let inBal := m.getInputsUdtBalance tx
  let outBal := m.getOutputsUdtBalance tx
  if (inBal.1 < outBal.1 || inBal.2 < outBal.2) && shouldAddInputs then
    let r := accumulateUdts compressState outBal.1 outBal.2 (m.findUdts results) inBal.1 inBal.2
    ⟨UdtManager.addUdts tx r.1, r.2.1, outBal.1, r.1.length⟩
  else
    ⟨tx, inBal.1, outBal.1, 0⟩

/-- `UdtManager.completeUdt`.  The signer is embedded by its recommended
lock script `recommendedLock` and by the cell stream `results` its owned
locks produce; `chgCap` is the capacity the external `addOutput` assigns to
the change output.  After the accumulation phase: fail with
`insufficientCoin` when the input token total is still below the output
token total; return `(inAdded, false)` when they are equal; otherwise append
one change output paying the recommended lock, typed with the UDT script and
carrying the surplus as a 16-byte little-endian amount, and return
`(inAdded, true)`. -/
def UdtManager.completeUdt (m : UdtManager) (recommendedLock : Script)
    (results : List Cell) (chgCap : Nat) (shouldAddInputs compressState : Bool)
    (tx : UdtTx) : Except TxError (UdtTx × Nat × Bool) :=
  let r := completeUdtCore m results shouldAddInputs compressState tx
  if r.inUdt < r.outUdt then
    .error (.insufficientCoin (r.outUdt - r.inUdt) m.script m.symbol m.decimals)
  else if r.inUdt = r.outUdt then
    .ok (r.txMid, r.inAdded, false)
  else
    .ok (r.txMid.addOutput ⟨chgCap, recommendedLock, some m.script⟩
          (uint128LEEncode (r.inUdt - r.outUdt)), r.inAdded, true)

/-! ## The balancing engine (`SmartTransaction.completeFee`) -/

/-- `SmartTransaction.completeFee` checks whether the transaction touches the
NervosDAO script: some input's resolved cell or some output carries `dao` as
its type script. -/
def isDaoTx (dao : Script) (tx : UdtTx) : Bool :=
  tx.inputs.any (fun c => c.cellOutput.type == some dao) ||
    tx.outputs.any (fun o => o.type == some dao)

/-- The handler loop of `completeFee`: run each registered handler's
`completeUdt` in registration order, threading the transaction and summing
the added-input counts and change flags; a handler error aborts the loop. -/
def runUdtHandlers :
    List (UdtTx → Except TxError (UdtTx × Nat × Bool)) → UdtTx → Nat → Bool →
      Except TxError (UdtTx × Nat × Bool)
  | [], tx, n, b => .ok (tx, n, b)
  | h :: rest, tx, n, b =>
    match h tx with
    | .error e => .error e
    | .ok (tx', k, c) => runUdtHandlers rest tx' (n + k) (b || c)

/-- `SmartTransaction.completeFee` (transaction.ts, the variant at lines
544–579): run every registered UDT handler's `completeUdt`, then the base
`super.completeFee` (external, passed as `superCompleteFee` together with
the `dao` script the external known-script registry returns), and finally
fail when the transaction touches NervosDAO and has more than 64 outputs.
Each handler is the partial application of its `completeUdt` to the signer
and options. -/
def completeFee (dao : Script)
    (handlers : List (UdtTx → Except TxError (UdtTx × Nat × Bool)))
    (superCompleteFee : UdtTx → UdtTx × Nat × Bool) (tx : UdtTx) :
    Except TxError (UdtTx × Nat × Bool) :=
  match runUdtHandlers handlers tx 0 false with
  | .error e => .error e
  | .ok (tx1, n1, b1) =>
    let s := superCompleteFee tx1
    if isDaoTx dao s.1 && decide (64 < s.1.outputs.length) then
      .error (.message "More than 64 output cells in a NervosDAO transaction")
    else
      .ok (s.1, n1 + s.2.1, b1 || s.2.2)

/-- The verification loop of the earlier `completeFee` variant
(transaction.ts lines 97–117): re-run the per-asset input completion
(`completeInputsByUdt`, an external base-transaction routine passed as a
function) for every handler's script and fail as soon as one reports it
still added inputs. -/
def verifyUdtHandlers (completeInputsByUdt : Script → UdtTx → UdtTx × Nat) :
    List Script → UdtTx → Except TxError UdtTx
  | [], tx => .ok tx
  | s :: rest, tx =>
    let r := completeInputsByUdt s tx
    if 0 < r.2 then
      .error (.message "UDT Handlers did not produce a balanced Transaction")
    else
      verifyUdtHandlers completeInputsByUdt rest r.1

/-- The earlier `completeFee` variant (transaction.ts lines 97–117): run the
per-asset input completion once for every handler script, re-run it as a
verification pass that must add nothing, then delegate to the base
`super.completeFee`. -/
def completeFeeDoubleCheck (handlers : List Script)
    (completeInputsByUdt : Script → UdtTx → UdtTx × Nat)
    (superCompleteFee : UdtTx → UdtTx × Nat × Bool) (tx : UdtTx) :
    Except TxError (UdtTx × Nat × Bool) :=
  let tx1 := handlers.foldl (fun t s => (completeInputsByUdt s t).1) tx
  match verifyUdtHandlers completeInputsByUdt handlers tx1 with
  | .error e => .error e
  | .ok tx2 => .ok (superCompleteFee tx2)

/-! ## Rational epochs (epoch.ts) -/

/-- An `Epoch` instance: whole part `number` plus fraction `index / length`.
All three components are JavaScript bigints, embedded as `Int`. -/
structure Epoch where
  number : Int
  index : Int
  length : Int
deriving DecidableEq

/-- One iteration budget of the `gcd` while loop from utils.ts: while
`v ≠ 0`, replace `(res, v)` by `(v, res % v)`, where `%` is the truncating
JavaScript bigint remainder (`Int.tmod`). -/
def gcdJsAux : Nat → Int → Int → Int
  | 0, res, _ => res
  | fuel + 1, res, v => if v = 0 then res else gcdJsAux fuel v (res.tmod v)

/-- Embeds `gcd` from utils.ts, binary case (the epoch code always calls it
with exactly two arguments): the iterative Euclidean algorithm on bigints.
The while loop is embedded with an explicit iteration budget; `|v| + 1`
iterations always suffice because the remainder strictly shrinks in
absolute value, and `gcdJs_eq` below recovers the budget-free loop
equation. -/
def gcdJs (res v : Int) : Int :=
  gcdJsAux (v.natAbs + 1) res v

/-- Embeds `Epoch.from` (epoch.ts lines 58–90) on a raw
`{number, index, length}` triple: fail on a non-positive length, borrow
whole units while the index is negative, reduce the fraction by the greatest
common divisor, and carry fraction overflow into the whole part.  JavaScript
bigint `/` and `%` truncate toward zero (`Int.tdiv` / `Int.tmod`). -/
def Epoch.normalize (number index length : Int) : Except TxError Epoch :=
  if length ≤ 0 then .error (.message "Non positive Epoch length")
  else
    let p : Int × Int :=
      if index < 0 then
        let n := (-index + length - 1).tdiv length
        (number - n, index + length * n)
      else (number, index)
    let g := gcdJs p.2 length
    let index' := p.2.tdiv g
    let length' := length.tdiv g
    .ok ⟨p.1 + index'.tdiv length', index'.tmod length', length'⟩

/-- Embeds `Epoch.fromHex`: `ccc.epochFromHex` (external, modelled from the
compact encoded form the host chain defines: number in bits 0–23, index in
bits 24–39, length in bits 40–55) followed by normalization. -/
def Epoch.fromHex (v : Nat) : Except TxError Epoch :=
  Epoch.normalize (Int.ofNat (v % 2 ^ 24)) (Int.ofNat (v / 2 ^ 24 % 2 ^ 16))
    (Int.ofNat (v / 2 ^ 40 % 2 ^ 16))

/-- Embeds `Epoch.compare` between two `Epoch` instances: whole parts first,
then the fractions by cross-multiplication. -/
def Epoch.compare (a b : Epoch) : Int :=
  if a.number < b.number then -1
  else if b.number < a.number then 1
  else
    let v0 := a.index * b.length
    let v1 := b.index * a.length
    if v0 < v1 then -1
    else if v1 < v0 then 1
    else 0

/-- Embeds `Epoch.add` between two `Epoch` instances (the source first runs
`Epoch.from(other)`, which returns an existing instance unchanged): sum the
whole parts, align the fractions to a common denominator when the
denominators differ, and normalize. -/
def Epoch.add (a b : Epoch) : Except TxError Epoch :=
  let number := a.number + b.number
  if a.length ≠ b.length then
    Epoch.normalize number (b.index * a.length + a.index * b.length) (a.length * b.length)
  else
    Epoch.normalize number (a.index + b.index) a.length

/-- Embeds `Epoch.add` on a raw triple: the source normalizes the epoch-like
argument (`Epoch.from(other)`) and then adds. -/
def Epoch.addLike (a : Epoch) (n i l : Int) : Except TxError Epoch :=
  match Epoch.normalize n i l with
  | .error e => .error e
  | .ok b => a.add b

/-- Embeds `Epoch.sub` (epoch.ts lines 185–189): destructure the argument
without normalizing, negate its whole part and index, and add. -/
def Epoch.sub (a : Epoch) (n i l : Int) : Except TxError Epoch :=
  a.addLike (-n) (-i) l

/-- The invariant of a normalized epoch (spec §3): positive denominator,
index within `[0, length)`, fraction in lowest terms (or index zero). -/
def Epoch.normalized (e : Epoch) : Prop :=
  0 < e.length ∧ 0 ≤ e.index ∧ e.index < e.length ∧
    (Int.gcd e.index e.length = 1 ∨ e.index = 0)

instance (e : Epoch) : Decidable e.normalized := by
  unfold Epoch.normalized
  infer_instance

/-- The rational value an epoch denotes: `number + index / length`.  Used
only to state and prove properties. -/
def Epoch.val (e : Epoch) : ℚ :=
  (e.number : ℚ) + (e.index : ℚ) / (e.length : ℚ)

/-! ## The header cache (`SmartTransaction.addHeaders`) -/

/-- The three addressing schemes of a header lookup key. -/
inductive HeaderKeyType where
  | hash
  | number
  | txHash
deriving DecidableEq

/-- A block header as the header cache uses it: its hash and its number,
embedded as numbers (`ccc.numFrom` of the hex values). -/
structure BlockHeader where
  hash : Nat
  number : Nat
deriving DecidableEq

/-- Embeds `encodeHeaderKey`: the source concatenates the decimal string of
the numeric value with the type name; since decimal digits contain no
letters and the three type names are fixed, that concatenation is injective,
so the key is embedded as the pair. -/
def encodeHeaderKey (t : HeaderKeyType) (value : Nat) : Nat × HeaderKeyType :=
  (value, t)

/-- Lookup in the header cache (`Map.get`), embedded as an association
list. -/
def headersGet (hs : List ((Nat × HeaderKeyType) × BlockHeader))
    (k : Nat × HeaderKeyType) : Option BlockHeader :=
  match hs.find? (fun e => e.1 == k) with
  | some e => some e.2
  | none => none

/-- Update of the header cache (`Map.set`): replace the binding when the key
is present, append it otherwise. -/
def headersSet (hs : List ((Nat × HeaderKeyType) × BlockHeader))
    (k : Nat × HeaderKeyType) (v : BlockHeader) :
    List ((Nat × HeaderKeyType) × BlockHeader) :=
  if hs.any (fun e => e.1 == k) then
    hs.map (fun e => if e.1 == k then (k, v) else e)
  else hs ++ [(k, v)]

/-- The header cache and header dependencies of a transaction, the state
`addHeaders` reads and writes. -/
structure HeaderState where
  headers : List ((Nat × HeaderKeyType) × BlockHeader)
  headerDeps : List Nat
deriving DecidableEq

/-- The key loop of `addHeaders`: for each encoded key, insert the current
header when the key is absent; when present with the same hash, keep the
cached header (the source reassigns `header = h`); when present with a
different hash, fail. -/
def addHeaderKeys (keys : List (Nat × HeaderKeyType))
    (hs : List ((Nat × HeaderKeyType) × BlockHeader)) (header : BlockHeader) :
    Except TxError (List ((Nat × HeaderKeyType) × BlockHeader) × BlockHeader) :=
  match keys with
  | [] => .ok (hs, header)
  | k :: rest =>
    match headersGet hs k with
    | none => addHeaderKeys rest (headersSet hs k header) header
    | some h =>
      if header.hash = h.hash then addHeaderKeys rest hs h
      else .error (.message "Found two hashes for the same header")

/-- The lookup keys `addHeaders` computes for one header: by hash, by
number, and by the originating transaction hash when provided. -/
def headerKeysOf (header : BlockHeader) (txHash : Option Nat) :
    List (Nat × HeaderKeyType) :=
  [encodeHeaderKey HeaderKeyType.hash header.hash,
   encodeHeaderKey HeaderKeyType.number header.number] ++
    (match txHash with
    | some t => [encodeHeaderKey HeaderKeyType.txHash t]
    | none => [])

/-- Embeds `SmartTransaction.addHeaders` (transaction.ts lines 269–311) for
one `TransactionHeader`: build the keys (hash, number, and the transaction
hash when given), run the key loop, then append the header's hash to
`headerDeps` unless already present. -/
def addHeaders (st : HeaderState) (header : BlockHeader) (txHash : Option Nat) :
    Except TxError HeaderState :=
  match addHeaderKeys (headerKeysOf header txHash) st.headers header with
  | .error e => .error e
  | .ok (hs, _) =>
    let deps :=
      if st.headerDeps.any (fun h => h == header.hash) then st.headerDeps
      else st.headerDeps ++ [header.hash]
    .ok ⟨hs, deps⟩

/-! ## Clone and copy (`SmartTransaction.clone` / `SmartTransaction.copy`)

Reference sharing of the `udtHandlers` and `headers` maps is embedded with
an explicit store: each map lives at an index (`Nat` reference) of the store,
and a transaction holds the two references.  JavaScript `!==` on the maps is
reference disequality. -/

/-- A handler or header map, with opaque keys and values. -/
abbrev RefMap := List (Nat × Nat)

/-- `Map.get` on a stored map: the first binding of the key. -/
def refMapGet : RefMap → Nat → Option Nat
  | [], _ => none
  | e :: rest, k => if e.1 == k then some e.2 else refMapGet rest k

/-- `Map.set` on a stored map: replace the (first) binding when the key is
present, append it otherwise. -/
def refMapSet : RefMap → Nat → Nat → RefMap
  | [], k, v => [(k, v)]
  | e :: rest, k, v =>
    if e.1 == k then (k, v) :: rest else e :: refMapSet rest k v

/-- The merge loop of `copy`: for every entry of the source map, `set` it
into the destination map. -/
def mergeEntries (dst src : RefMap) : RefMap :=
  src.foldl (fun d e => refMapSet d e.1 e.2) dst

/-- The store of live maps, indexed by reference. -/
def storeGet (store : List RefMap) (r : Nat) : RefMap :=
  store.getD r []

/-- Overwrite the map a reference points to. -/
def storeSet (store : List RefMap) (r : Nat) (mp : RefMap) : List RefMap :=
  store.set r mp

/-- The fields of a `SmartTransaction` relevant to `clone`/`copy`: the
value-carried transaction fields (contents opaque) and the two map
references. -/
structure SmartTx where
  version : Nat
  cellDeps : List Nat
  headerDeps : List Nat
  inputs : List Nat
  outputs : List Nat
  outputsData : List Nat
  witnesses : List Nat
  udtHandlersRef : Nat
  headersRef : Nat
deriving DecidableEq

/-- Embeds `SmartTransaction.clone` (transaction.ts lines 865–870): the
transaction fields are value-copied (`super.clone()`, external) and the two
map references are taken from the original, so the maps are shared. -/
def SmartTx.clone (t : SmartTx) : SmartTx :=
  { version := t.version, cellDeps := t.cellDeps, headerDeps := t.headerDeps,
    inputs := t.inputs, outputs := t.outputs, outputsData := t.outputsData,
    witnesses := t.witnesses, udtHandlersRef := t.udtHandlersRef,
    headersRef := t.headersRef }

/-- Embeds `SmartTransaction.copy` (transaction.ts lines 881–902): copy the
transaction fields from the source; when the destination's map reference
differs from the source's, merge the source map's entries into the
destination's map (the destination keeps its own reference). -/
def SmartTx.copy (store : List RefMap) (dest src : SmartTx) :
    List RefMap × SmartTx :=
  let store1 :=
    if dest.udtHandlersRef = src.udtHandlersRef then store
    else
      storeSet store dest.udtHandlersRef
        (mergeEntries (storeGet store dest.udtHandlersRef)
          (storeGet store src.udtHandlersRef))
  let store2 :=
    if dest.headersRef = src.headersRef then store1
    else
      storeSet store1 dest.headersRef
        (mergeEntries (storeGet store1 dest.headersRef)
          (storeGet store1 src.headersRef))
  (store2,
    { dest with
      version := src.version, cellDeps := src.cellDeps,
      headerDeps := src.headerDeps, inputs := src.inputs,
      outputs := src.outputs, outputsData := src.outputsData,
      witnesses := src.witnesses })

/-! ## Concrete instances used by witnesses and counterexamples -/

/-- A UDT type script. -/
def sUdt : Script := ⟨0, 0, []⟩

/-- A lock script (also the signer's recommended lock). -/
def sLock : Script := ⟨1, 0, []⟩

/-- The NervosDAO script identity the known-script registry returns. -/
def sDao : Script := ⟨2, 0, []⟩

/-- A UDT manager for `sUdt`. -/
def mgrEx : UdtManager := ⟨sUdt, "Token", "TKN", 8⟩

/-- A UDT cell already among the transaction inputs: capacity 10, amount 5. -/
def cellFive : Cell := ⟨⟨10, sLock, some sUdt⟩, uint128LEEncode 5⟩

/-- A UDT cell the signer's cell search finds: capacity 7, amount 4. -/
def cellFour : Cell := ⟨⟨7, sLock, some sUdt⟩, uint128LEEncode 4⟩

/-- A transaction holding `cellFive` and one UDT output of amount 3 with
capacity 50. -/
def txEx0 : UdtTx :=
  ⟨[cellFive], [⟨50, sLock, some sUdt⟩], [uint128LEEncode 3]⟩

/-- The transaction `completeUdt` produces from `txEx0` with found cell
`cellFour` and change capacity 20: `cellFour` was accumulated (the UDT
inputs' capacity 10 was below the UDT outputs' capacity 50) and a change
output of amount 6 appended. -/
def txEx1 : UdtTx :=
  ⟨[cellFive, cellFour],
   [⟨50, sLock, some sUdt⟩, ⟨20, sLock, some sUdt⟩],
   [uint128LEEncode 3, uint128LEEncode 6]⟩

/-- The transaction a second `completeUdt` run produces from `txEx1`:
`cellFour` is accumulated again (the UDT inputs' capacity 17 is below the
UDT outputs' capacity 70) and another change output of amount 4 appended. -/
def txEx2 : UdtTx :=
  ⟨[cellFive, cellFour, cellFour],
   [⟨50, sLock, some sUdt⟩, ⟨20, sLock, some sUdt⟩, ⟨20, sLock, some sUdt⟩],
   [uint128LEEncode 3, uint128LEEncode 6, uint128LEEncode 4]⟩

/-- A transaction balanced in both token amount and capacity. -/
def txBal : UdtTx :=
  ⟨[cellFive], [⟨10, sLock, some sUdt⟩], [uint128LEEncode 5]⟩

/-- A destination transaction whose handler map lives at store index 0 and
whose header map lives at store index 2. -/
def destTx : SmartTx := ⟨0, [], [], [], [], [], [], 0, 2⟩

/-- A source transaction whose handler map lives at store index 1 and whose
header map is shared with the destination (index 2). -/
def srcTx : SmartTx := ⟨1, [], [], [], [], [], [], 1, 2⟩

/-- A store where the destination's handler map binds key 0 to handler 1 and
the source's binds the same key 0 to handler 2. -/
def storeEx : List RefMap := [[(0, 1)], [(0, 2)], []]

/-- A transaction with no inputs that needs 5 tokens in its outputs. -/
def txNeed : UdtTx := ⟨[], [⟨50, sLock, some sUdt⟩], [uint128LEEncode 5]⟩

/-- A base fee-completion that adds nothing (external collaborator stub for
concrete instances). -/
def superFeeId : UdtTx → UdtTx × Nat × Bool := fun tx => (tx, 0, false)

/-- A NervosDAO transaction with 64 outputs. -/
def txDao64 : UdtTx := ⟨[], List.replicate 64 ⟨1, sLock, some sDao⟩, []⟩

/-- A NervosDAO transaction with 65 outputs. -/
def txDao65 : UdtTx := ⟨[], List.replicate 65 ⟨1, sLock, some sDao⟩, []⟩

/-- A cell with a matching UDT type script but only one byte of data: its
hex data length 4 is below the 34 the input-side classifier requires. -/
def cellShort : Cell := ⟨⟨9, sLock, some sUdt⟩, [7]⟩

/-- A transaction holding `cellShort` both as an input and as its only
output. -/
def txShort : UdtTx := ⟨[cellShort], [⟨9, sLock, some sUdt⟩], [[7]]⟩

/-! ## Supporting lemmas for `completeUdt` -/

/-- Closed form of the input-balance walk: the accumulator receives the sum
of decoded amounts and the sum of capacities over the inputs passing
`isUdt`. -/
theorem getInputsUdtBalanceAux_eq (m : UdtManager) (l : List Cell) (acc : Nat × Nat) :
    getInputsUdtBalanceAux m l acc =
      (acc.1 + ((l.filter (fun c => m.isUdt c)).map (fun c => udtBalanceFrom c.outputData)).sum,
       acc.2 + ((l.filter (fun c => m.isUdt c)).map (fun c => c.cellOutput.capacity)).sum) := by
  induction l generalizing acc with
  | nil => simp [getInputsUdtBalanceAux]
  | cons c rest ih =>
    obtain ⟨a, b⟩ := acc
    by_cases h : m.isUdt c
    · simp only [getInputsUdtBalanceAux, h, if_pos, List.filter_cons_of_pos, List.map_cons,
        List.sum_cons, ih]
      exact Prod.ext (by omega) (by omega)
    · simp only [getInputsUdtBalanceAux, h, if_neg, List.filter_cons_of_neg, ih,
        Bool.false_eq_true, not_false_iff]

/-- Every cell yielded by `findUdts` passes `isUdt` and carries its decoded
amount and its capacity. -/
theorem findUdts_mem (m : UdtManager) (results : List Cell) (u : UdtCell)
    (h : u ∈ m.findUdts results) :
    m.isUdt u.cell = true ∧ u.udtValue = udtBalanceFrom u.cell.outputData ∧
      u.ckbValue = u.cell.cellOutput.capacity := by
  obtain ⟨c, hc, rfl⟩ := List.mem_map.mp h
  exact ⟨(List.mem_filter.mp hc).2, rfl, rfl⟩

/-- The accumulation loop's final token total is the initial total plus the
token amounts of the collected cells. -/
theorem accumulateUdts_inUdt (cs : Bool) (oU oC : Nat) (us : List UdtCell) (u0 c0 : Nat) :
    (accumulateUdts cs oU oC us u0 c0).2.1 =
      u0 + ((accumulateUdts cs oU oC us u0 c0).1.map (fun u => u.udtValue)).sum := by
  induction us generalizing u0 c0 with
  | nil => simp [accumulateUdts]
  | cons u rest ih =>
    simp only [accumulateUdts]
    split
    · simp
    · simp only [List.map_cons, List.sum_cons, ih]
      omega

/-- Every cell the accumulation loop collects comes from the found stream. -/
theorem accumulateUdts_mem (cs : Bool) (oU oC : Nat) (us : List UdtCell) (u0 c0 : Nat)
    (u : UdtCell) (h : u ∈ (accumulateUdts cs oU oC us u0 c0).1) : u ∈ us := by
  induction us generalizing u0 c0 with
  | nil => simp [accumulateUdts] at h
  | cons v rest ih =>
    simp only [accumulateUdts] at h
    split at h
    · simp at h
      simp [h]
    · rcases List.mem_cons.mp h with h | h
      · simp [h]
      · exact List.mem_cons_of_mem v (ih _ _ h)

/-- The number of inputs of the accumulation-phase transaction. -/
theorem completeUdtCore_inputs_length (m : UdtManager) (results : List Cell)
    (sai cs : Bool) (tx : UdtTx) :
    (completeUdtCore m results sai cs tx).txMid.inputs.length =
      tx.inputs.length + (completeUdtCore m results sai cs tx).inAdded := by
  simp only [completeUdtCore]
  split <;> simp [UdtManager.addUdts]

/-- The accumulation phase does not touch outputs or outputs data. -/
theorem completeUdtCore_outputs (m : UdtManager) (results : List Cell)
    (sai cs : Bool) (tx : UdtTx) :
    (completeUdtCore m results sai cs tx).txMid.outputs = tx.outputs ∧
      (completeUdtCore m results sai cs tx).txMid.outputsData = tx.outputsData := by
  simp only [completeUdtCore]
  split <;> simp [UdtManager.addUdts]

/-- The `outUdt` recorded by the accumulation phase is the transaction's
output token total. -/
theorem completeUdtCore_outUdt (m : UdtManager) (results : List Cell)
    (sai cs : Bool) (tx : UdtTx) :
    (completeUdtCore m results sai cs tx).outUdt = (m.getOutputsUdtBalance tx).1 := by
  simp only [completeUdtCore]
  split <;> simp

/-- The `inUdt` recorded by the accumulation phase equals the input token
total of the accumulation-phase transaction: recomputing the input balance
after the selected cells were appended gives back the loop's running
total. -/
theorem getInputsUdtBalance_addUdts (m : UdtManager) (tx : UdtTx) (sel : List UdtCell)
    (h : ∀ u ∈ sel, m.isUdt u.cell = true ∧ u.udtValue = udtBalanceFrom u.cell.outputData) :
    (m.getInputsUdtBalance (UdtManager.addUdts tx sel)).1 =
      (m.getInputsUdtBalance tx).1 + (sel.map (fun u => u.udtValue)).sum := by
  have hfil : (sel.map (fun u => u.cell)).filter (fun c => m.isUdt c) =
      sel.map (fun u => u.cell) := by
    refine List.filter_eq_self.mpr ?_
    intro c hc
    obtain ⟨u, hu, rfl⟩ := List.mem_map.mp hc
    exact (h u hu).1
  have hdec : (sel.map (fun u => u.cell)).map (fun c => udtBalanceFrom c.outputData) =
      sel.map (fun u => u.udtValue) := by
    rw [List.map_map]
    refine List.map_congr_left ?_
    intro u hu
    exact ((h u hu).2).symm
  simp only [UdtManager.getInputsUdtBalance, UdtManager.addUdts, getInputsUdtBalanceAux_eq,
    List.filter_append, List.map_append, List.sum_append, hfil, hdec]
  omega

theorem completeUdtCore_inUdt (m : UdtManager) (results : List Cell)
    (sai cs : Bool) (tx : UdtTx) :
    (m.getInputsUdtBalance (completeUdtCore m results sai cs tx).txMid).1 =
      (completeUdtCore m results sai cs tx).inUdt := by
  simp only [completeUdtCore]
  split <;> dsimp only
  · rw [getInputsUdtBalance_addUdts, accumulateUdts_inUdt]
    intro u hu
    have hm := accumulateUdts_mem _ _ _ _ _ _ u hu
    exact ⟨(findUdts_mem m results u hm).1, (findUdts_mem m results u hm).2.1⟩

/-- The output-balance walk over a concatenation runs the two parts in
sequence, the second starting at the shifted index. -/
theorem getOutputsUdtBalanceAux_append (m : UdtManager) (data : List (List Nat))
    (l1 l2 : List CellOutput) (i : Nat) (acc : Nat × Nat) :
    getOutputsUdtBalanceAux m data (l1 ++ l2) i acc =
      getOutputsUdtBalanceAux m data l2 (i + l1.length)
        (getOutputsUdtBalanceAux m data l1 i acc) := by
  induction l1 generalizing i acc with
  | nil => simp [getOutputsUdtBalanceAux]
  | cons o rest ih =>
    simp only [List.cons_append, getOutputsUdtBalanceAux, List.length_cons, List.append_eq]
    rw [ih]
    have h : i + 1 + rest.length = i + (rest.length + 1) := by omega
    rw [h]

/-- While the walked indices stay inside the original data list, appending
extra data entries does not change the output-balance walk. -/
theorem getOutputsUdtBalanceAux_data_irrel (m : UdtManager) (data extra : List (List Nat))
    (l : List CellOutput) (i : Nat) (acc : Nat × Nat) (h : i + l.length ≤ data.length) :
    getOutputsUdtBalanceAux m (data ++ extra) l i acc =
      getOutputsUdtBalanceAux m data l i acc := by
  induction l generalizing i acc with
  | nil => simp [getOutputsUdtBalanceAux]
  | cons o rest ih =>
    simp only [getOutputsUdtBalanceAux]
    rw [List.getD_append _ _ _ _ (by simp at h; omega), ih _ _ (by simp at h; omega)]

/-- Effect of appending one output on the output balance, for a transaction
whose outputs and outputs-data lists are aligned: a type-matching appended
output contributes its decoded data and capacity, any other appended output
contributes nothing. -/
theorem getOutputsUdtBalance_addOutput (m : UdtManager) (tx : UdtTx) (o : CellOutput)
    (d : List Nat) (hlen : tx.outputs.length = tx.outputsData.length) :
    m.getOutputsUdtBalance (tx.addOutput o d) =
      (if o.type == some m.script then
        ((m.getOutputsUdtBalance tx).1 + udtBalanceFrom d,
         (m.getOutputsUdtBalance tx).2 + o.capacity)
      else m.getOutputsUdtBalance tx) := by
  simp only [UdtManager.getOutputsUdtBalance, UdtTx.addOutput]
  rw [getOutputsUdtBalanceAux_append,
    getOutputsUdtBalanceAux_data_irrel m tx.outputsData [d] tx.outputs 0 (0, 0) (by omega)]
  simp only [getOutputsUdtBalanceAux, Nat.zero_add]
  rw [List.getD_append_right _ _ _ _ (by omega), hlen]
  simp [getOutputsUdtBalanceAux]

/-- Little-endian decoding inverts the fixed-width little-endian encoding
modulo the width. -/
theorem leDecode_rangeEncode (k n : Nat) :
    leDecode ((List.range k).map (fun i => n / 256 ^ i % 256)) = n % 256 ^ k := by
  induction k generalizing n with
  | zero => simp [leDecode, Nat.mod_one]
  | succ k ih =>
    rw [List.range_succ_eq_map, List.map_cons, List.map_map]
    have hc : ((fun i => n / 256 ^ i % 256) ∘ Nat.succ) =
        (fun i => n / 256 / 256 ^ i % 256) := by
      funext i
      simp [Nat.div_div_eq_div_mul, Nat.pow_succ']
    rw [hc]
    simp only [leDecode, ih (n / 256), Nat.pow_zero, Nat.div_one, Nat.mod_mod]
    rw [Nat.pow_succ', Nat.mod_mul]

/-- Decoding a 16-byte little-endian encoded amount gives back the amount
modulo `2 ^ 128`. -/
theorem udtBalanceFrom_uint128LEEncode (n : Nat) :
    udtBalanceFrom (uint128LEEncode n) = n % 2 ^ 128 := by
  have hlen : (uint128LEEncode n).length = 16 := by simp [uint128LEEncode]
  have htake : (uint128LEEncode n).take 16 = uint128LEEncode n := by
    rw [List.take_of_length_le (by omega)]
  rw [udtBalanceFrom, htake, uint128LEEncode, leDecode_rangeEncode]
  norm_num

/-- The output balance only reads outputs and outputs data, so the
accumulation phase leaves it unchanged. -/
theorem completeUdtCore_outBalance (m : UdtManager) (results : List Cell)
    (sai cs : Bool) (tx : UdtTx) :
    m.getOutputsUdtBalance (completeUdtCore m results sai cs tx).txMid =
      m.getOutputsUdtBalance tx := by
  have h := completeUdtCore_outputs m results sai cs tx
  unfold UdtManager.getOutputsUdtBalance
  rw [h.1, h.2]

/-- Appending an output does not change the input balance. -/
theorem getInputsUdtBalance_addOutput (m : UdtManager) (tx : UdtTx) (o : CellOutput)
    (d : List Nat) : m.getInputsUdtBalance (tx.addOutput o d) = m.getInputsUdtBalance tx := rfl

/-- Full specification of a successful `completeUdt`: the token amounts are
conserved, the added-input count matches, a change output is appended
exactly when the post-accumulation input total exceeds the output total, and
the change output pays the recommended lock, is typed with the UDT script
and carries the surplus. -/
theorem completeUdt_ok_spec (m : UdtManager) (recommendedLock : Script)
    (results : List Cell) (chgCap : Nat) (sai cs : Bool) (tx tx' : UdtTx)
    (n : Nat) (b : Bool)
    (hlen : tx.outputs.length = tx.outputsData.length)
    (hok : m.completeUdt recommendedLock results chgCap sai cs tx = .ok (tx', n, b))
    (hfit : (m.getInputsUdtBalance tx').1 < 2 ^ 128) :
    (m.getInputsUdtBalance tx').1 = (m.getOutputsUdtBalance tx').1 ∧
    tx'.inputs.length = tx.inputs.length + n ∧
    (b = true ↔ (m.getOutputsUdtBalance tx).1 < (m.getInputsUdtBalance tx').1) ∧
    (b = true →
      tx'.outputs = tx.outputs ++ [⟨chgCap, recommendedLock, some m.script⟩] ∧
      tx'.outputsData = tx.outputsData ++
        [uint128LEEncode
          ((m.getInputsUdtBalance tx').1 - (m.getOutputsUdtBalance tx).1)]) ∧
    (b = false → tx'.outputs = tx.outputs ∧ tx'.outputsData = tx.outputsData) := by
  have F1 := completeUdtCore_inUdt m results sai cs tx
  have F2 := completeUdtCore_outUdt m results sai cs tx
  have F3 := completeUdtCore_outputs m results sai cs tx
  have F4 := completeUdtCore_inputs_length m results sai cs tx
  have F5 := completeUdtCore_outBalance m results sai cs tx
  set r := completeUdtCore m results sai cs tx with hr
  simp only [UdtManager.completeUdt, ← hr] at hok
  split at hok
  · exact absurd hok (by simp)
  · split at hok
    · -- the exact-balance branch: no change output
      rename_i hnlt heq
      obtain ⟨h1, h2, h3⟩ : r.txMid = tx' ∧ r.inAdded = n ∧ false = b := by
        simpa using hok
      subst h1; subst h2; subst h3
      refine ⟨?_, ?_, ?_, by simp, fun _ => ⟨F3.1, F3.2⟩⟩
      · rw [F1, heq, F2, F5]
      · exact F4
      · simp only [Bool.false_eq_true, false_iff, not_lt]
        rw [F1, heq, ← F2]
    · -- the surplus branch: one change output appended
      rename_i hnlt hne
      have hgt : r.outUdt < r.inUdt := by omega
      obtain ⟨h1, h2, h3⟩ :
          r.txMid.addOutput ⟨chgCap, recommendedLock, some m.script⟩
            (uint128LEEncode (r.inUdt - r.outUdt)) = tx' ∧ r.inAdded = n ∧ true = b := by
        simpa using hok
      subst h1; subst h2; subst h3
      have hIn : (m.getInputsUdtBalance
          (r.txMid.addOutput ⟨chgCap, recommendedLock, some m.script⟩
            (uint128LEEncode (r.inUdt - r.outUdt)))).1 = r.inUdt := by
        rw [getInputsUdtBalance_addOutput, F1]
      have hmidlen : r.txMid.outputs.length = r.txMid.outputsData.length := by
        rw [F3.1, F3.2]; exact hlen
      have hOut := getOutputsUdtBalance_addOutput m r.txMid
        ⟨chgCap, recommendedLock, some m.script⟩
        (uint128LEEncode (r.inUdt - r.outUdt)) hmidlen
      simp only [beq_self_eq_true, if_pos] at hOut
      have hsur : r.inUdt - r.outUdt < 2 ^ 128 := by
        rw [hIn] at hfit; omega
      have hdec : udtBalanceFrom (uint128LEEncode (r.inUdt - r.outUdt)) =
          r.inUdt - r.outUdt := by
        rw [udtBalanceFrom_uint128LEEncode, Nat.mod_eq_of_lt hsur]
      refine ⟨?_, ?_, ?_, fun _ => ⟨?_, ?_⟩, by simp⟩
      · rw [hIn, hOut, hdec, F5, ← F2]
        omega
      · simpa [UdtTx.addOutput] using F4
      · simp only [true_iff]
        rw [hIn, ← F2]
        exact hgt
      · simp [UdtTx.addOutput, F3.1]
      · have : (m.getInputsUdtBalance
            (r.txMid.addOutput ⟨chgCap, recommendedLock, some m.script⟩
              (uint128LEEncode (r.inUdt - r.outUdt)))).1 -
            (m.getOutputsUdtBalance tx).1 = r.inUdt - r.outUdt := by
          rw [hIn, ← F2]
        rw [this]
        simp [UdtTx.addOutput, F3.2]

/-! ## Claim C1 -/

/-- C1: whenever `completeUdt` returns successfully, the transaction's total
UDT input amount equals its total UDT output amount exactly (no token amount
is created or destroyed); the number of appended inputs is the returned
count; and if inputs exceeded outputs, exactly one change output paying the
signer's recommended lock script and carrying `inputTotal - outputTotal` as
a 16-byte little-endian amount was appended and the call returns
`(addedCount, true)`. -/
theorem completeUdt_conserves (m : UdtManager) (recommendedLock : Script)
    (results : List Cell) (chgCap : Nat) (sai cs : Bool) (tx tx' : UdtTx)
    (n : Nat) (b : Bool)
    (hlen : tx.outputs.length = tx.outputsData.length)
    (hok : m.completeUdt recommendedLock results chgCap sai cs tx = .ok (tx', n, b))
    (hfit : (m.getInputsUdtBalance tx').1 < 2 ^ 128) :
    (m.getInputsUdtBalance tx').1 = (m.getOutputsUdtBalance tx').1 ∧
    tx'.inputs.length = tx.inputs.length + n ∧
    (b = true ↔ (m.getOutputsUdtBalance tx).1 < (m.getInputsUdtBalance tx').1) ∧
    (b = true →
      tx'.outputs = tx.outputs ++ [⟨chgCap, recommendedLock, some m.script⟩] ∧
      tx'.outputsData = tx.outputsData ++
        [uint128LEEncode
          ((m.getInputsUdtBalance tx').1 - (m.getOutputsUdtBalance tx).1)]) :=
  have h := completeUdt_ok_spec m recommendedLock results chgCap sai cs tx tx' n b
    hlen hok hfit
  ⟨h.1, h.2.1, h.2.2.1, h.2.2.2.1⟩

/-- Witness for C1 at a concrete instance: completing `txEx0` (inputs hold
5 tokens, outputs 3) with found cell `cellFour` yields `txEx1`, on which the
input and output token totals agree. -/
theorem completeUdt_conserves_witness :
    mgrEx.completeUdt sLock [cellFour] 20 true false txEx0 = .ok (txEx1, 1, true) ∧
    (mgrEx.getInputsUdtBalance txEx1).1 = (mgrEx.getOutputsUdtBalance txEx1).1 :=
  ⟨rfl, (completeUdt_conserves mgrEx sLock [cellFour] 20 true false txEx0 txEx1 1 true
    rfl rfl (by decide)).1⟩

/-! ## Claim C2 -/

/-- C2: `completeUdt` fails with an insufficient-coin error exactly when,
after any input accumulation, the input token total is still below the
output token total; the error carries the shortfall, the UDT type script,
the symbol and the decimals; and when the totals are equal it adds no change
output and returns `(addedCount, false)`. -/
theorem completeUdt_insufficient (m : UdtManager) (recommendedLock : Script)
    (results : List Cell) (chgCap : Nat) (sai cs : Bool) (tx : UdtTx) :
    (∀ e, m.completeUdt recommendedLock results chgCap sai cs tx = .error e ↔
        ((m.getInputsUdtBalance (completeUdtCore m results sai cs tx).txMid).1 <
            (m.getOutputsUdtBalance tx).1 ∧
          e = .insufficientCoin
              ((m.getOutputsUdtBalance tx).1 -
                (m.getInputsUdtBalance (completeUdtCore m results sai cs tx).txMid).1)
              m.script m.symbol m.decimals)) ∧
    ((m.getInputsUdtBalance (completeUdtCore m results sai cs tx).txMid).1 =
        (m.getOutputsUdtBalance tx).1 →
      m.completeUdt recommendedLock results chgCap sai cs tx =
        .ok ((completeUdtCore m results sai cs tx).txMid,
             (completeUdtCore m results sai cs tx).inAdded, false) ∧
      (completeUdtCore m results sai cs tx).txMid.outputs = tx.outputs ∧
      (completeUdtCore m results sai cs tx).txMid.outputsData = tx.outputsData) := by
  have F1 := completeUdtCore_inUdt m results sai cs tx
  have F2 := completeUdtCore_outUdt m results sai cs tx
  have F3 := completeUdtCore_outputs m results sai cs tx
  set r := completeUdtCore m results sai cs tx with hr
  rw [F1, ← F2]
  constructor
  · intro e
    constructor
    · intro he
      simp only [UdtManager.completeUdt, ← hr] at he
      split at he
      · rename_i hlt
        simp only [Except.error.injEq] at he
        exact ⟨hlt, he.symm⟩
      · split at he <;> simp at he
    · rintro ⟨hlt, rfl⟩
      simp only [UdtManager.completeUdt, ← hr]
      rw [if_pos hlt]
  · intro heq
    refine ⟨?_, F3.1, F3.2⟩
    simp only [UdtManager.completeUdt, ← hr]
    rw [if_neg (by omega), if_pos heq]

/-- Witness for C2 at a concrete instance: a transaction needing 5 tokens
with no inputs and no cells found fails with the insufficient-coin error
carrying shortfall 5, the UDT script, "TKN" and 8 decimals. -/
theorem completeUdt_insufficient_witness :
    mgrEx.completeUdt sLock [] 20 true false txNeed =
      .error (.insufficientCoin 5 sUdt "TKN" 8) :=
  ((completeUdt_insufficient mgrEx sLock [] 20 true false txNeed).1
      (.insufficientCoin 5 sUdt "TKN" 8)).mpr ⟨by decide, by decide⟩

/-! ## Claim C3 -/

/-- C3: after the handler loop and the base fee completion, if any input or
output of the resulting transaction carries the NervosDAO type script, then
`completeFee` fails when the transaction has more than 64 outputs and
succeeds when it has at most 64. -/
theorem completeFee_daoLimit (dao : Script)
    (handlers : List (UdtTx → Except TxError (UdtTx × Nat × Bool)))
    (superCompleteFee : UdtTx → UdtTx × Nat × Bool) (tx tx1 : UdtTx)
    (n1 : Nat) (b1 : Bool)
    (hrun : runUdtHandlers handlers tx 0 false = .ok (tx1, n1, b1))
    (hdao : isDaoTx dao (superCompleteFee tx1).1 = true) :
    (64 < (superCompleteFee tx1).1.outputs.length →
      completeFee dao handlers superCompleteFee tx =
        .error (.message "More than 64 output cells in a NervosDAO transaction")) ∧
    ((superCompleteFee tx1).1.outputs.length ≤ 64 →
      completeFee dao handlers superCompleteFee tx =
        .ok ((superCompleteFee tx1).1,
             n1 + (superCompleteFee tx1).2.1,
             b1 || (superCompleteFee tx1).2.2)) := by
  constructor
  · intro hgt
    simp only [completeFee, hrun]
    rw [if_pos (by simp [hdao, hgt])]
  · intro hle
    simp only [completeFee, hrun]
    rw [if_neg (by simp [hdao]; omega)]

/-- Witness for C3 at concrete instances: with the NervosDAO script among
the outputs, 65 outputs fail and 64 outputs succeed. -/
theorem completeFee_daoLimit_witness :
    completeFee sDao [] superFeeId txDao65 =
      .error (.message "More than 64 output cells in a NervosDAO transaction") ∧
    completeFee sDao [] superFeeId txDao64 = .ok (txDao64, 0, false) :=
  ⟨(completeFee_daoLimit sDao [] superFeeId txDao65 txDao65 0 false rfl
      (by decide)).1 (by decide),
   (completeFee_daoLimit sDao [] superFeeId txDao64 txDao64 0 false rfl
      (by decide)).2 (by decide)⟩

/-! ## Claim C4 -/

/-- Counterexample to C4 as stated: the first `completeUdt` pass on `txEx0`
succeeds and balances the token amounts (9 in, 9 out), yet a second pass on
the resulting `txEx1` again adds one input and appends another change
output, because the UDT inputs' capacity (17) is below the UDT outputs'
capacity including the first change output (70) and the cell search yields
`cellFour` again. -/
theorem completeUdt_second_pass_adds :
    mgrEx.completeUdt sLock [cellFour] 20 true false txEx0 = .ok (txEx1, 1, true) ∧
    mgrEx.completeUdt sLock [cellFour] 20 true false txEx1 = .ok (txEx2, 1, true) ∧
    txEx2.inputs.length = txEx1.inputs.length + 1 ∧
    txEx2.outputs.length = txEx1.outputs.length + 1 :=
  ⟨rfl, rfl, rfl, rfl⟩

/-- C4 amended: a second `completeUdt` pass on a transaction a first
successful pass balanced adds zero inputs and zero change outputs provided
the UDT inputs' capacity covers the UDT outputs' capacity (including the
change output); and in the engine's `completeFee` variant that re-runs the
per-asset completion as a verification pass, a handler that still adds
inputs in the second pass makes `completeFee` fail with "UDT Handlers did
not produce a balanced Transaction". -/
theorem completeUdt_balancing_idempotence (m : UdtManager) (rec rec' : Script)
    (results results' : List Cell) (chgCap chgCap' : Nat) (cs cs' : Bool)
    (tx tx1 : UdtTx) (n : Nat) (b : Bool)
    (hlen : tx.outputs.length = tx.outputsData.length)
    (hok : m.completeUdt rec results chgCap true cs tx = .ok (tx1, n, b))
    (hfit : (m.getInputsUdtBalance tx1).1 < 2 ^ 128)
    (hcap : (m.getOutputsUdtBalance tx1).2 ≤ (m.getInputsUdtBalance tx1).2) :
    m.completeUdt rec' results' chgCap' true cs' tx1 = .ok (tx1, 0, false) ∧
    (∀ (s : Script) (f : Script → UdtTx → UdtTx × Nat)
        (g : UdtTx → UdtTx × Nat × Bool) (t0 : UdtTx),
      0 < (f s ((f s t0).1)).2 →
      completeFeeDoubleCheck [s] f g t0 =
        .error (.message "UDT Handlers did not produce a balanced Transaction")) := by
  have hbal := (completeUdt_ok_spec m rec results chgCap true cs tx tx1 n b
    hlen hok hfit).1
  constructor
  · have hcore : completeUdtCore m results' true cs' tx1 =
        ⟨tx1, (m.getInputsUdtBalance tx1).1, (m.getOutputsUdtBalance tx1).1, 0⟩ := by
      simp only [completeUdtCore]
      rw [if_neg]
      simp only [Bool.and_eq_true, Bool.or_eq_true, decide_eq_true_eq, not_and, not_or,
        not_lt]
      intro _
      omega
    simp only [UdtManager.completeUdt, hcore]
    rw [if_neg (by omega), if_pos hbal]
  · intro s f g t0 h
    simp only [completeFeeDoubleCheck, List.foldl_cons, List.foldl_nil,
      verifyUdtHandlers, if_pos h]

/-- Witness for the amended C4 at a concrete instance: on the balanced
`txBal` the (re-run) completion adds nothing, and a verification pass whose
per-asset completion still adds one input fails. -/
theorem completeUdt_balancing_idempotence_witness :
    mgrEx.completeUdt sLock [] 20 true false txBal = .ok (txBal, 0, false) ∧
    completeFeeDoubleCheck [sUdt] (fun _ t => (t, 1)) superFeeId txBal =
      .error (.message "UDT Handlers did not produce a balanced Transaction") :=
  have h := completeUdt_balancing_idempotence mgrEx sLock sLock [] [] 20 20 false false
    txBal txBal 0 false rfl rfl (by decide) (by decide)
  ⟨h.1, h.2 sUdt (fun _ t => (t, 1)) superFeeId txBal (by decide)⟩

/-! ## Claim C7 -/

/-- Counterexample to C7 as stated: normalizing
`{number: 100, index: -5, length: 10}` does not yield components
`{99, 5, 10}` — the code also reduces the fraction `5/10` by its greatest
common divisor, yielding `{99, 1, 2}`. -/
theorem epoch_normalize_borrow_counterexample :
    Epoch.normalize 100 (-5) 10 = .ok ⟨99, 1, 2⟩ ∧
    Epoch.mk 99 1 2 ≠ Epoch.mk 99 5 10 :=
  ⟨rfl, by decide⟩

/-- C7 amended: normalizing `{number: 100, index: -5, length: 10}` borrows
one whole unit and reduces the fraction, yielding exactly
`{number: 99, index: 1, length: 2}`, whose rational value equals
`100 + (-5)/10`. -/
theorem epoch_normalize_borrow_example :
    Epoch.normalize 100 (-5) 10 = .ok ⟨99, 1, 2⟩ ∧
    Epoch.val ⟨99, 1, 2⟩ = (100 : ℚ) + (-5 : ℚ) / 10 :=
  ⟨rfl, by norm_num [Epoch.val]⟩

/-! ## Claim C10 -/

/-- C10: input-side and output-side UDT classification are asymmetric.  A
cell counts toward the input balance only when its type script equals the
handler's script and its data hex length is at least 34; every output whose
type script equals the handler's script is counted in the output balance
regardless of its data length; and the concrete cell `cellShort` (matching
type, one byte of data) contributes to the output total of `txShort` while
being ignored on the input side. -/
theorem udt_in_out_asymmetry (m : UdtManager) :
    (∀ c : Cell, m.isUdt c = true ↔
      (c.cellOutput.type = some m.script ∧ 34 ≤ hexLength c.outputData)) ∧
    (∀ (c : Cell) (tx : UdtTx), m.isUdt c = false →
      m.getInputsUdtBalance ⟨c :: tx.inputs, tx.outputs, tx.outputsData⟩ =
        m.getInputsUdtBalance tx) ∧
    (∀ (tx : UdtTx) (o : CellOutput) (d : List Nat),
      tx.outputs.length = tx.outputsData.length → o.type = some m.script →
      (m.getOutputsUdtBalance (tx.addOutput o d)).1 =
        (m.getOutputsUdtBalance tx).1 + udtBalanceFrom d) ∧
    (mgrEx.isUdt cellShort = false ∧
      cellShort.cellOutput.type = some mgrEx.script ∧
      hexLength cellShort.outputData < 34 ∧
      (mgrEx.getInputsUdtBalance txShort).1 = 0 ∧
      (mgrEx.getOutputsUdtBalance txShort).1 = 7) := by
  refine ⟨?_, ?_, ?_, by decide, by decide, by decide, by decide, by decide⟩
  · intro c
    simp [UdtManager.isUdt]
  · intro c tx h
    simp [UdtManager.getInputsUdtBalance, getInputsUdtBalanceAux, h]
  · intro tx o d hlen ht
    have h := getOutputsUdtBalance_addOutput m tx o d hlen
    rw [h, if_pos (by simp [ht])]

/-- Witness for C10: the short-data cell leaves the input balance unchanged
when prepended as an input, yet the matching output carrying it in `txShort`
makes the output total 7. -/
theorem udt_in_out_asymmetry_witness :
    mgrEx.getInputsUdtBalance ⟨cellShort :: txBal.inputs, txBal.outputs, txBal.outputsData⟩ =
      mgrEx.getInputsUdtBalance txBal ∧
    (mgrEx.getOutputsUdtBalance txShort).1 = 7 :=
  have h := udt_in_out_asymmetry mgrEx
  ⟨h.2.1 cellShort txBal (by decide), h.2.2.2.2.2.2.2⟩

/-! ## Supporting lemmas for `addHeaders` -/

/-- A key absent from the cache makes `headersSet` append the binding. -/
theorem headersSet_of_absent (hs : List ((Nat × HeaderKeyType) × BlockHeader))
    (k : Nat × HeaderKeyType) (v : BlockHeader) (h : headersGet hs k = none) :
    headersSet hs k v = hs ++ [(k, v)] := by
  have hf : hs.find? (fun e => e.1 == k) = none := by
    unfold headersGet at h
    cases hf : hs.find? (fun e => e.1 == k) with
    | none => rfl
    | some e => rw [hf] at h; simp at h
  unfold headersSet
  rw [if_neg]
  intro hany
  obtain ⟨e, he, hek⟩ := List.any_eq_true.mp hany
  have := List.find?_eq_none.mp hf e he
  exact this hek

/-- Reading back the key just inserted into the cache. -/
theorem headersGet_set_self (hs : List ((Nat × HeaderKeyType) × BlockHeader))
    (k : Nat × HeaderKeyType) (v : BlockHeader) (h : headersGet hs k = none) :
    headersGet (headersSet hs k v) k = some v := by
  rw [headersSet_of_absent hs k v h]
  have hf : hs.find? (fun e => e.1 == k) = none := by
    unfold headersGet at h
    cases hf : hs.find? (fun e => e.1 == k) with
    | none => rfl
    | some e => rw [hf] at h; simp at h
  unfold headersGet
  simp [List.find?_append, hf]

/-- Inserting an absent key leaves every other key's lookup unchanged. -/
theorem headersGet_set_ne (hs : List ((Nat × HeaderKeyType) × BlockHeader))
    (k k' : Nat × HeaderKeyType) (v : BlockHeader) (h : headersGet hs k = none)
    (hne : k' ≠ k) :
    headersGet (headersSet hs k v) k' = headersGet hs k' := by
  rw [headersSet_of_absent hs k v h]
  unfold headersGet
  cases hf : hs.find? (fun e => e.1 == k') with
  | some e => simp [List.find?_append, hf]
  | none =>
    simp [List.find?_append, hf]
    rw [if_neg (fun heq => absurd heq.symm hne)]

/-- The key loop fails exactly when some key already maps to a header with a
different hash (for key lists without duplicate keys). -/
theorem addHeaderKeys_error_iff (keys : List (Nat × HeaderKeyType))
    (hs : List ((Nat × HeaderKeyType) × BlockHeader)) (hd : BlockHeader)
    (hnd : keys.Nodup) :
    addHeaderKeys keys hs hd = .error (.message "Found two hashes for the same header") ↔
      ∃ k ∈ keys, ∃ h, headersGet hs k = some h ∧ h.hash ≠ hd.hash := by
  induction keys generalizing hs hd with
  | nil => simp [addHeaderKeys]
  | cons k rest ih =>
    have hk : k ∉ rest := (List.nodup_cons.mp hnd).1
    have hrest : rest.Nodup := (List.nodup_cons.mp hnd).2
    simp only [addHeaderKeys]
    cases hget : headersGet hs k with
    | none =>
      rw [ih _ _ hrest]
      constructor
      · rintro ⟨k', hk', h, hgot, hne⟩
        refine ⟨k', List.mem_cons_of_mem k hk', h, ?_, hne⟩
        rwa [headersGet_set_ne hs k k' hd hget (fun he => hk (he ▸ hk'))] at hgot
      · rintro ⟨k', hk', h, hgot, hne⟩
        rcases List.mem_cons.mp hk' with rfl | hk'
        · rw [hget] at hgot; exact absurd hgot (by simp)
        · refine ⟨k', hk', h, ?_, hne⟩
          rwa [headersGet_set_ne hs k k' hd hget (fun he => hk (he ▸ hk'))]
    | some h =>
      dsimp only
      by_cases hh : hd.hash = h.hash
      · rw [if_pos hh, ih _ _ hrest]
        constructor
        · rintro ⟨k', hk', h', hgot, hne⟩
          exact ⟨k', List.mem_cons_of_mem k hk', h', hgot, by rw [← hh] at hne; exact hne⟩
        · rintro ⟨k', hk', h', hgot, hne⟩
          rcases List.mem_cons.mp hk' with rfl | hk'
          · rw [hget] at hgot
            obtain rfl : h = h' := by simpa using hgot
            exact absurd hh.symm hne
          · exact ⟨k', hk', h', hgot, by rw [← hh]; exact hne⟩
      · rw [if_neg hh]
        simp only [true_iff]
        exact ⟨k, List.mem_cons_self k rest, h, hget, fun he => hh he.symm⟩

/-- When the key loop succeeds: every processed key is bound to a header
with the inserted header's hash, existing bindings are retained unchanged,
unprocessed keys are untouched, and the carried header keeps its hash. -/
theorem addHeaderKeys_ok_spec (keys : List (Nat × HeaderKeyType))
    (hs : List ((Nat × HeaderKeyType) × BlockHeader)) (hd : BlockHeader)
    (hnd : keys.Nodup) (hs' : List ((Nat × HeaderKeyType) × BlockHeader))
    (hd' : BlockHeader) (hok : addHeaderKeys keys hs hd = .ok (hs', hd')) :
    (∀ k ∈ keys, ∃ h', headersGet hs' k = some h' ∧ h'.hash = hd.hash ∧
      (∀ h, headersGet hs k = some h → h' = h)) ∧
    (∀ k, k ∉ keys → headersGet hs' k = headersGet hs k) ∧
    hd'.hash = hd.hash := by
  induction keys generalizing hs hd with
  | nil =>
    obtain ⟨rfl, rfl⟩ : hs = hs' ∧ hd = hd' := by
      simpa [addHeaderKeys] using hok
    exact ⟨by simp, fun k _ => rfl, rfl⟩
  | cons k rest ih =>
    have hk : k ∉ rest := (List.nodup_cons.mp hnd).1
    have hrest : rest.Nodup := (List.nodup_cons.mp hnd).2
    simp only [addHeaderKeys] at hok
    cases hget : headersGet hs k with
    | none =>
      rw [hget] at hok
      obtain ⟨h1, h2, h3⟩ := ih (headersSet hs k hd) hd hrest hok
      refine ⟨?_, ?_, h3⟩
      · intro k' hk'
        rcases List.mem_cons.mp hk' with rfl | hk'
        · refine ⟨hd, ?_, rfl, ?_⟩
          · rw [h2 k' hk, headersGet_set_self hs k' hd hget]
          · intro h hgot
            rw [hget] at hgot
            exact absurd hgot (by simp)
        · obtain ⟨h', hg', hh', hr'⟩ := h1 k' hk'
          refine ⟨h', hg', hh', ?_⟩
          intro h hgot
          exact hr' h (by rwa [headersGet_set_ne hs k k' hd hget
            (fun he => hk (he ▸ hk'))])
      · intro k' hk'
        have hne : k' ≠ k := fun he => hk' (he ▸ List.mem_cons_self k rest)
        rw [h2 k' (fun hm => hk' (List.mem_cons_of_mem k hm)),
          headersGet_set_ne hs k k' hd hget hne]
    | some h =>
      rw [hget] at hok
      dsimp only at hok
      by_cases hh : hd.hash = h.hash
      · rw [if_pos hh] at hok
        obtain ⟨h1, h2, h3⟩ := ih hs h hrest hok
        refine ⟨?_, ?_, by rw [h3, hh]⟩
        · intro k' hk'
          rcases List.mem_cons.mp hk' with rfl | hk'
          · refine ⟨h, ?_, hh.symm, ?_⟩
            · rw [h2 k' hk, hget]
            · intro h0 hgot
              rw [hget] at hgot
              simpa using hgot
          · obtain ⟨h', hg', hh', hr'⟩ := h1 k' hk'
            exact ⟨h', hg', by rw [hh', hh], hr'⟩
        · intro k' hk'
          exact h2 k' (fun hm => hk' (List.mem_cons_of_mem k hm))
      · rw [if_neg hh] at hok
        exact absurd hok (by simp)

/-! ## Claim C8 -/

/-- C8: `addHeaders` (one header with optional originating transaction
hash) fails with "Found two hashes for the same header" exactly when one of
its lookup keys already maps to a cached header with a different hash; on
success every key is bound, existing bindings are retained (the header
cached first wins), and the header's hash is appended to `headerDeps` only
when not already present, so `headerDeps` stays duplicate-free. -/
theorem addHeaders_spec (st : HeaderState) (header : BlockHeader)
    (txHash : Option Nat) :
    (addHeaders st header txHash =
        .error (.message "Found two hashes for the same header") ↔
      ∃ k ∈ headerKeysOf header txHash, ∃ h,
        headersGet st.headers k = some h ∧ h.hash ≠ header.hash) ∧
    (∀ st', addHeaders st header txHash = .ok st' →
      (∀ k ∈ headerKeysOf header txHash,
        ∃ h', headersGet st'.headers k = some h' ∧ h'.hash = header.hash ∧
          (∀ h, headersGet st.headers k = some h → h' = h)) ∧
      (header.hash ∈ st.headerDeps → st'.headerDeps = st.headerDeps) ∧
      (header.hash ∉ st.headerDeps →
        st'.headerDeps = st.headerDeps ++ [header.hash]) ∧
      (st.headerDeps.Nodup → st'.headerDeps.Nodup)) := by
  have hnd : (headerKeysOf header txHash).Nodup := by
    cases txHash <;> simp [headerKeysOf, encodeHeaderKey]
  constructor
  · constructor
    · intro he
      unfold addHeaders at he
      cases hak : addHeaderKeys (headerKeysOf header txHash) st.headers header with
      | error e =>
        rw [hak] at he
        obtain rfl : e = .message "Found two hashes for the same header" := by
          simpa using he
        exact (addHeaderKeys_error_iff _ _ _ hnd).mp hak
      | ok p => rw [hak] at he; simp at he
    · intro hex
      have hak := (addHeaderKeys_error_iff _ st.headers header hnd).mpr hex
      unfold addHeaders
      rw [hak]
  · intro st' hok'
    unfold addHeaders at hok'
    cases hak : addHeaderKeys (headerKeysOf header txHash) st.headers header with
    | error e => rw [hak] at hok'; simp at hok'
    | ok p =>
      obtain ⟨hs2, hd2⟩ := p
      rw [hak] at hok'
      have hspec := addHeaderKeys_ok_spec _ _ _ hnd hs2 hd2 hak
      obtain rfl : (⟨hs2,
          if st.headerDeps.any (fun h => h == header.hash) then st.headerDeps
          else st.headerDeps ++ [header.hash]⟩ : HeaderState) = st' := by
        simpa using hok'
      refine ⟨hspec.1, ?_, ?_, ?_⟩
      · intro hmem
        simp only []
        rw [if_pos (by simpa using hmem)]
      · intro hmem
        simp only []
        rw [if_neg (by simpa using hmem)]
      · intro hdnd
        by_cases hmem : header.hash ∈ st.headerDeps
        · simpa [hmem] using hdnd
        · have hanyf : st.headerDeps.any (fun h => h == header.hash) = false := by
            simp only [List.any_eq_false, beq_iff_eq]
            exact fun x hx he => hmem (he ▸ hx)
          simp only [hanyf, Bool.false_eq_true, if_neg]
          simp [List.nodup_append, hdnd, hmem]

/-- Witness for C8: inserting a header over a cache where its number key
already maps to a different hash fails; inserting into an empty cache binds
all three keys and appends the hash to the dependency list. -/
theorem addHeaders_spec_witness :
    addHeaders ⟨[((5, HeaderKeyType.number), ⟨77, 5⟩)], []⟩ ⟨88, 5⟩ none =
      .error (.message "Found two hashes for the same header") ∧
    (∃ st', addHeaders ⟨[], []⟩ ⟨88, 5⟩ (some 3) = .ok st' ∧
      st'.headerDeps = [88]) :=
  ⟨(addHeaders_spec ⟨[((5, HeaderKeyType.number), ⟨77, 5⟩)], []⟩ ⟨88, 5⟩ none).1.mpr
    ⟨(5, HeaderKeyType.number), by decide, ⟨77, 5⟩, rfl, by decide⟩,
   ⟨⟨[((88, HeaderKeyType.hash), ⟨88, 5⟩), ((5, HeaderKeyType.number), ⟨88, 5⟩),
      ((3, HeaderKeyType.txHash), ⟨88, 5⟩)], [88]⟩, rfl,
    ((addHeaders_spec ⟨[], []⟩ ⟨88, 5⟩ (some 3)).2 _ rfl).2.2.1 (by decide)⟩⟩

/-! ## Supporting lemmas for `copy` -/

/-- Reading back a key just set. -/
theorem refMapGet_set_self (m : RefMap) (k v : Nat) :
    refMapGet (refMapSet m k v) k = some v := by
  induction m with
  | nil => simp [refMapSet, refMapGet]
  | cons e rest ih =>
    by_cases h : e.1 = k
    · simp [refMapSet, refMapGet, h]
    · simp [refMapSet, refMapGet, h, ih]

/-- Setting one key leaves every other key's lookup unchanged. -/
theorem refMapGet_set_ne (m : RefMap) (k k' v : Nat) (h : k' ≠ k) :
    refMapGet (refMapSet m k v) k' = refMapGet m k' := by
  have h' : ¬(k = k') := fun he => h he.symm
  induction m with
  | nil => simp [refMapSet, refMapGet, h']
  | cons e rest ih =>
    by_cases he : e.1 = k
    · have he' : ¬(e.1 = k') := by rw [he]; exact h'
      simp [refMapSet, refMapGet, he, h', he']
    · simp [refMapSet, refMapGet, he, ih]

/-- A key outside a map's key list has no binding. -/
theorem refMapGet_eq_none (m : RefMap) (k : Nat) (h : k ∉ m.map Prod.fst) :
    refMapGet m k = none := by
  induction m with
  | nil => rfl
  | cons e rest ih =>
    simp only [List.map_cons, List.mem_cons] at h
    push_neg at h
    have h1 : ¬(e.1 = k) := fun hx => h.1 hx.symm
    simp [refMapGet, h1, ih h.2]

/-- The merge loop of `copy`: for a source map with unique keys, a key bound
in the source ends up with the source's value (the source overwrites the
destination), and a key not bound in the source keeps the destination's
binding. -/
theorem mergeEntries_get (dst src : RefMap) (k : Nat)
    (hnd : (src.map Prod.fst).Nodup) :
    refMapGet (mergeEntries dst src) k =
      match refMapGet src k with
      | some v => some v
      | none => refMapGet dst k := by
  induction src generalizing dst with
  | nil => simp [mergeEntries, refMapGet]
  | cons e src' ih =>
    simp only [List.map_cons, List.nodup_cons] at hnd
    have hstep : mergeEntries dst (e :: src') =
        mergeEntries (refMapSet dst e.1 e.2) src' := rfl
    rw [hstep, ih _ hnd.2]
    by_cases hk : e.1 = k
    · subst hk
      have hnone : refMapGet src' e.1 = none := refMapGet_eq_none src' e.1 hnd.1
      simp [hnone, refMapGet, refMapGet_set_self]
    · simp [refMapGet, hk, refMapGet_set_ne dst e.1 k e.2 (fun hx => hk hx.symm)]

/-! ## Claim C9 -/

/-- Counterexample to C9 as stated: with distinct handler-map identities,
`copy` merges with `Map.set`, so for key 0 — present in both maps — the
destination's entry (handler 1) is overwritten by the source's entry
(handler 2): the destination's existing entry does not win. -/
theorem copy_destination_loses :
    refMapGet (storeGet (SmartTx.copy storeEx destTx srcTx).1
      destTx.udtHandlersRef) 0 = some 2 ∧
    refMapGet (storeGet storeEx destTx.udtHandlersRef) 0 = some 1 ∧
    (some 2 : Option Nat) ≠ some 1 :=
  ⟨rfl, rfl, by decide⟩

/-- C9 amended: `clone()` value-copies the transaction fields and shares the
`udtHandlers`/`headers` maps by reference; `copy(txLike)` copies the
transaction fields from the source while keeping the destination's own map
identities; when both identities coincide the store is untouched; and when
they differ the source's entries are merged into the destination's map with
the source's entry overwriting the destination's for any key present in
both, keys only in the destination being preserved. -/
theorem clone_copy_spec :
    (∀ t : SmartTx, t.clone = t ∧ t.clone.udtHandlersRef = t.udtHandlersRef ∧
      t.clone.headersRef = t.headersRef) ∧
    (∀ (store : List RefMap) (dest src : SmartTx),
      (SmartTx.copy store dest src).2 =
        { src with udtHandlersRef := dest.udtHandlersRef,
                   headersRef := dest.headersRef }) ∧
    (∀ (store : List RefMap) (dest src : SmartTx),
      dest.udtHandlersRef = src.udtHandlersRef → dest.headersRef = src.headersRef →
      (SmartTx.copy store dest src).1 = store) ∧
    (∀ (dst src : RefMap) (k : Nat), (src.map Prod.fst).Nodup →
      refMapGet (mergeEntries dst src) k =
        match refMapGet src k with
        | some v => some v
        | none => refMapGet dst k) := by
  refine ⟨?_, ?_, ?_, fun dst src k hnd => mergeEntries_get dst src k hnd⟩
  · intro t
    exact ⟨rfl, rfl, rfl⟩
  · intro store dest src
    simp [SmartTx.copy]
  · intro store dest src h1 h2
    simp [SmartTx.copy, h1, h2]

/-- Witness for the amended C9 at concrete instances: equal map identities
leave the store untouched, and the merged map keeps a destination-only key
while taking the source's value on a shared key. -/
theorem clone_copy_spec_witness :
    (SmartTx.copy storeEx destTx destTx).1 = storeEx ∧
    refMapGet (mergeEntries [(0, 1), (7, 9)] [(0, 2)]) 0 = some 2 ∧
    refMapGet (mergeEntries [(0, 1), (7, 9)] [(0, 2)]) 7 = some 9 :=
  have h := clone_copy_spec
  ⟨h.2.2.1 storeEx destTx destTx rfl rfl,
   by rw [h.2.2.2 [(0, 1), (7, 9)] [(0, 2)] 0 (by decide)]; rfl,
   by rw [h.2.2.2 [(0, 1), (7, 9)] [(0, 2)] 7 (by decide)]; rfl⟩

/-! ## Supporting lemmas for the epoch arithmetic -/

/-- The absolute value of the truncating remainder is the remainder of the
absolute values. -/
theorem natAbs_tmod (a b : Int) : (a.tmod b).natAbs = a.natAbs % b.natAbs := by
  rcases a with m | m <;> rcases b with k | k <;>
    simp only [Int.tmod, Int.natAbs_neg, Int.ofNat_eq_natCast, Int.natAbs_ofNat,
      Int.natAbs_negSucc]

/-- The truncating remainder strictly shrinks in absolute value. -/
theorem natAbs_tmod_lt (a : Int) {b : Int} (hb : b ≠ 0) :
    (a.tmod b).natAbs < b.natAbs := by
  rw [natAbs_tmod]
  exact Nat.mod_lt _ (Int.natAbs_pos.mpr hb)

/-- Any sufficient iteration budget computes the same `gcd` loop result. -/
theorem gcdJsAux_irrel (f1 : Nat) :
    ∀ (f2 : Nat) (res v : Int), v.natAbs < f1 → v.natAbs < f2 →
      gcdJsAux f1 res v = gcdJsAux f2 res v := by
  induction f1 with
  | zero => intro f2 res v h1; omega
  | succ n ih =>
    intro f2 res v h1 h2
    cases f2 with
    | zero => omega
    | succ m =>
      by_cases hv : v = 0
      · simp [gcdJsAux, hv]
      · have hlt := natAbs_tmod_lt res hv
        simp only [gcdJsAux]
        rw [if_neg hv, if_neg hv]
        have hv1 : 0 < v.natAbs := Int.natAbs_pos.mpr hv
        exact ih m v (res.tmod v) (by omega) (by omega)

/-- The budget-free loop equation of the utils.ts `gcd`. -/
theorem gcdJs_eq (res v : Int) :
    gcdJs res v = if v = 0 then res else gcdJs v (res.tmod v) := by
  by_cases hv : v = 0
  · simp [gcdJs, gcdJsAux, hv]
  · rw [if_neg hv]
    unfold gcdJs
    have h1 : gcdJsAux (v.natAbs + 1) res v = gcdJsAux v.natAbs v (res.tmod v) := by
      simp [gcdJsAux, hv]
    rw [h1]
    exact gcdJsAux_irrel v.natAbs ((res.tmod v).natAbs + 1) v (res.tmod v)
      (natAbs_tmod_lt res hv) (by omega)

/-- On non-negative inputs, the utils.ts `gcd` loop computes `Nat.gcd` of
the second argument with the first. -/
theorem gcdJs_natCast (m n : Nat) : gcdJs (m : Int) (n : Int) = (Nat.gcd n m : Int) := by
  induction n using Nat.strong_induction_on generalizing m with
  | _ n ih =>
    cases n with
    | zero => simp [gcdJs_eq]
    | succ k =>
      rw [gcdJs_eq, if_neg (by positivity)]
      have ht : (Int.tmod (m : Int) ((k + 1 : Nat) : Int)) = ((m % (k + 1) : Nat) : Int) := by
        rw [Int.ofNat_tmod]
      rw [ht, ih (m % (k + 1)) (Nat.mod_lt m (Nat.succ_pos k)) (k + 1)]
      rw [Nat.gcd_rec (k + 1) m]

/-- Splitting a fraction into its whole part and remainder. -/
theorem natCarry_val (I L : Nat) (hL : 0 < L) :
    ((I / L : Nat) : ℚ) + ((I % L : Nat) : ℚ) / (L : ℚ) = (I : ℚ) / (L : ℚ) := by
  have h : L * (I / L) + I % L = I := Nat.div_add_mod I L
  have hq : (L : ℚ) * ((I / L : Nat) : ℚ) + ((I % L : Nat) : ℚ) = (I : ℚ) := by
    exact_mod_cast congrArg (fun t : Nat => (t : ℚ)) h
  have hL' : (L : ℚ) ≠ 0 := by positivity
  field_simp
  linarith [hq]

/-- Dividing numerator and denominator by a common divisor preserves the
ratio. -/
theorem natDiv_ratio (I L G : Nat) (hG : 0 < G) (hGI : G ∣ I) (hGL : G ∣ L) :
    ((I / G : Nat) : ℚ) / ((L / G : Nat) : ℚ) = (I : ℚ) / (L : ℚ) := by
  obtain ⟨i', rfl⟩ := hGI
  obtain ⟨l', rfl⟩ := hGL
  rw [Nat.mul_div_cancel_left i' hG, Nat.mul_div_cancel_left l' hG]
  have hG' : (G : ℚ) ≠ 0 := by positivity
  by_cases hl' : l' = 0
  · simp [hl']
  · have : (l' : ℚ) ≠ 0 := by exact_mod_cast hl'
    push_cast
    field_simp
    ring

/-- Closed form of `Epoch.normalize` on a non-negative index and positive
length: no borrow happens, the fraction is reduced by `gcd` and the whole
overflow carried. -/
theorem normalize_nonneg_eq (nm : Int) (I L : Nat) (hL : 0 < L) :
    Epoch.normalize nm (I : Int) (L : Int) =
      .ok ⟨nm + ((I / Nat.gcd L I / (L / Nat.gcd L I) : Nat) : Int),
           ((I / Nat.gcd L I % (L / Nat.gcd L I) : Nat) : Int),
           ((L / Nat.gcd L I : Nat) : Int)⟩ := by
  have h1 : ¬((L : Int) ≤ 0) := by
    simp only [not_le]
    exact_mod_cast hL
  have h2 : ¬((I : Int) < 0) := by
    simp only [not_lt]
    exact Int.ofNat_nonneg I
  simp only [Epoch.normalize, h1, h2, if_neg, if_false, gcdJs_natCast]
  have ht1 : (I : Int).tdiv ((Nat.gcd L I : Nat) : Int) = ((I / Nat.gcd L I : Nat) : Int) := by
    rw [Int.ofNat_tdiv]
  have ht2 : ((L : Nat) : Int).tdiv ((Nat.gcd L I : Nat) : Int) =
      ((L / Nat.gcd L I : Nat) : Int) := by
    rw [Int.ofNat_tdiv]
  rw [ht1, ht2, ← Int.ofNat_tdiv, ← Int.ofNat_tmod]

/-- `Epoch.normalize` on a non-negative index: succeeds, establishes the
epoch invariants, and preserves the rational value. -/
theorem normalize_nonneg_spec (nm : Int) (I L : Nat) (hL : 0 < L) :
    ∃ e : Epoch, Epoch.normalize nm (I : Int) (L : Int) = .ok e ∧ e.normalized ∧
      e.val = (nm : ℚ) + (I : ℚ) / (L : ℚ) := by
  set G := Nat.gcd L I with hG
  have hGpos : 0 < G := Nat.gcd_pos_of_pos_left I hL
  have hGL : G ∣ L := Nat.gcd_dvd_left L I
  have hGI : G ∣ I := Nat.gcd_dvd_right L I
  set L' := L / G with hL'
  set I' := I / G with hI'
  have hL'pos : 0 < L' := Nat.div_pos (Nat.le_of_dvd hL hGL) hGpos
  refine ⟨_, normalize_nonneg_eq nm I L hL, ?_, ?_⟩
  · unfold Epoch.normalized
    dsimp only
    refine ⟨by exact_mod_cast hL'pos, Int.ofNat_nonneg _,
      by exact_mod_cast Nat.mod_lt I' hL'pos, Or.inl ?_⟩
    have h1 : Int.gcd ((I' % L' : Nat) : Int) ((L' : Nat) : Int) =
        Nat.gcd (I' % L') L' := rfl
    rw [h1, (Nat.gcd_rec L' I').symm]
    exact Nat.coprime_div_gcd_div_gcd (hG ▸ hGpos)
  · unfold Epoch.val
    dsimp only
    rw [Int.cast_add, Int.cast_natCast, Int.cast_natCast, Int.cast_natCast]
    have hc := natCarry_val I' L' hL'pos
    have hr := natDiv_ratio I L G hGpos hGI hGL
    rw [← hr, ← hc]
    ring

/-- The borrow count: borrowing `⌈-i / l⌉` whole units makes the index
non-negative. -/
theorem borrow_nonneg (i l : Int) (hl : 0 < l) (hi : i < 0) :
    0 ≤ i + l * ((-i + l - 1).tdiv l) := by
  obtain ⟨L, rfl⟩ := Int.eq_ofNat_of_zero_le hl.le
  have hL : 0 < L := by exact_mod_cast hl
  obtain ⟨P, hP⟩ := Int.eq_ofNat_of_zero_le (by omega : (0 : Int) ≤ -i)
  have hPpos : 0 < P := by omega
  have harg : -i + (L : Int) - 1 = ((P + L - 1 : Nat) : Int) := by
    omega
  rw [harg, ← Int.ofNat_tdiv]
  have hdiv : P ≤ L * ((P + L - 1) / L) := by
    have h1 := Nat.div_add_mod (P + L - 1) L
    have h2 := Nat.mod_lt (P + L - 1) hL
    omega
  have : ((P : Int)) ≤ (L : Int) * ((((P + L - 1) / L : Nat)) : Int) := by
    exact_mod_cast hdiv
  omega

/-- On a negative index, normalization first borrows whole units and then
behaves like normalizing the borrowed triple directly (whose index is
non-negative, so the borrow branch of the second call is inert). -/
theorem normalize_borrow (n i l : Int) (hl : 0 < l) (hi : i < 0) :
    Epoch.normalize n i l =
      Epoch.normalize (n - (-i + l - 1).tdiv l) (i + l * ((-i + l - 1).tdiv l)) l := by
  have h1 : ¬(l ≤ 0) := not_le.mpr hl
  have h2 : ¬(i + l * ((-i + l - 1).tdiv l) < 0) := not_lt.mpr (borrow_nonneg i l hl hi)
  simp only [Epoch.normalize, h1, hi, h2, if_true, if_false, if_neg, if_pos]

/-- `Epoch.normalize` on any positive length: succeeds, establishes the
epoch invariants, and preserves the rational value. -/
theorem normalize_spec (n i l : Int) (hl : 0 < l) :
    ∃ e : Epoch, Epoch.normalize n i l = .ok e ∧ e.normalized ∧
      e.val = (n : ℚ) + (i : ℚ) / (l : ℚ) := by
  obtain ⟨L, rfl⟩ := Int.eq_ofNat_of_zero_le hl.le
  have hL : 0 < L := by exact_mod_cast hl
  have hLq : ((L : ℚ)) ≠ 0 := by positivity
  by_cases hi : i < 0
  · rw [normalize_borrow n i _ hl hi]
    obtain ⟨I, hI⟩ := Int.eq_ofNat_of_zero_le (borrow_nonneg i _ hl hi)
    rw [hI]
    obtain ⟨e, he, hn, hv⟩ := normalize_nonneg_spec (n - (-i + (L : Int) - 1).tdiv L) I L hL
    refine ⟨e, he, hn, ?_⟩
    rw [hv]
    have hq : (I : ℚ) = (i : ℚ) + (L : ℚ) * (((-i + (L : Int) - 1).tdiv L : Int) : ℚ) := by
      exact_mod_cast congrArg (fun t : Int => (t : ℚ)) hI.symm
    push_cast
    rw [hq]
    field_simp
    ring
  · push_neg at hi
    obtain ⟨I, rfl⟩ := Int.eq_ofNat_of_zero_le hi
    exact normalize_nonneg_spec n I L hL

/-- `Epoch.normalize` fails exactly on non-positive lengths. -/
theorem normalize_err (n i l : Int) (hl : l ≤ 0) :
    Epoch.normalize n i l = .error (.message "Non positive Epoch length") := by
  simp only [Epoch.normalize, hl, if_pos]

/-- `Epoch.add` on two normalized epochs: succeeds, stays normalized, and
adds the rational values. -/
theorem add_spec (a b : Epoch) (ha : a.normalized) (hb : b.normalized) :
    ∃ c, a.add b = .ok c ∧ c.normalized ∧ c.val = a.val + b.val := by
  have hal : (0 : Int) < a.length := ha.1
  have hbl : (0 : Int) < b.length := hb.1
  have haq : ((a.length : ℚ)) ≠ 0 := by
    have : (a.length : Int) ≠ 0 := by omega
    exact_mod_cast this
  have hbq : ((b.length : ℚ)) ≠ 0 := by
    have : (b.length : Int) ≠ 0 := by omega
    exact_mod_cast this
  unfold Epoch.add
  by_cases hll : a.length = b.length
  · rw [if_neg (not_not_intro hll)]
    obtain ⟨c, hc, hn, hv⟩ := normalize_spec (a.number + b.number) (a.index + b.index)
      a.length hal
    refine ⟨c, hc, hn, ?_⟩
    rw [hv]
    unfold Epoch.val
    have hlq : ((b.length : ℚ)) = ((a.length : ℚ)) := by exact_mod_cast hll.symm
    rw [hlq]
    push_cast
    field_simp
    ring
  · rw [if_pos hll]
    obtain ⟨c, hc, hn, hv⟩ := normalize_spec (a.number + b.number)
      (b.index * a.length + a.index * b.length) (a.length * b.length) (by positivity)
    refine ⟨c, hc, hn, ?_⟩
    rw [hv]
    unfold Epoch.val
    push_cast
    field_simp
    ring

/-- `Epoch.add` on a raw triple with positive length: normalizes the triple
and adds its rational value. -/
theorem addLike_spec (a : Epoch) (ha : a.normalized) (n i l : Int) (hl : 0 < l) :
    ∃ c, a.addLike n i l = .ok c ∧ c.normalized ∧
      c.val = a.val + ((n : ℚ) + (i : ℚ) / (l : ℚ)) := by
  obtain ⟨b, hb, hbn, hbv⟩ := normalize_spec n i l hl
  unfold Epoch.addLike
  rw [hb]
  obtain ⟨c, hc, hn, hv⟩ := add_spec a b ha hbn
  exact ⟨c, hc, hn, by rw [hv, hbv]⟩

/-- `Epoch.sub` on a raw triple with positive length: succeeds, stays
normalized, and subtracts the triple's rational value. -/
theorem sub_spec (a : Epoch) (ha : a.normalized) (n i l : Int) (hl : 0 < l) :
    ∃ c, a.sub n i l = .ok c ∧ c.normalized ∧
      c.val = a.val - ((n : ℚ) + (i : ℚ) / (l : ℚ)) := by
  obtain ⟨c, hc, hn, hv⟩ := addLike_spec a ha (-n) (-i) l hl
  refine ⟨c, hc, hn, ?_⟩
  rw [hv]
  push_cast
  ring

/-- Two normalized epochs with the same rational value compare equal. -/
theorem compare_eq_of_val_eq (a d : Epoch) (ha : a.normalized) (hd : d.normalized)
    (hv : a.val = d.val) : a.compare d = 0 := by
  obtain ⟨hal, hai, hail, _⟩ := ha
  obtain ⟨hdl, hdi, hdil, _⟩ := hd
  have halq : (0 : ℚ) < (a.length : Int) := by exact_mod_cast hal
  have hdlq : (0 : ℚ) < (d.length : Int) := by exact_mod_cast hdl
  have hfa0 : (0 : ℚ) ≤ ((a.index : Int) : ℚ) / ((a.length : Int) : ℚ) :=
    div_nonneg (by exact_mod_cast hai) halq.le
  have hfa1 : ((a.index : Int) : ℚ) / ((a.length : Int) : ℚ) < 1 :=
    (div_lt_one halq).mpr (by exact_mod_cast hail)
  have hfd0 : (0 : ℚ) ≤ ((d.index : Int) : ℚ) / ((d.length : Int) : ℚ) :=
    div_nonneg (by exact_mod_cast hdi) hdlq.le
  have hfd1 : ((d.index : Int) : ℚ) / ((d.length : Int) : ℚ) < 1 :=
    (div_lt_one hdlq).mpr (by exact_mod_cast hdil)
  unfold Epoch.val at hv
  have hnum : a.number = d.number := by
    have c1 : ((a.number : Int) : ℚ) < ((d.number : Int) : ℚ) + 1 := by linarith
    have c2 : ((d.number : Int) : ℚ) < ((a.number : Int) : ℚ) + 1 := by linarith
    have c1' : a.number < d.number + 1 := by exact_mod_cast c1
    have c2' : d.number < a.number + 1 := by exact_mod_cast c2
    omega
  have hnq : ((a.number : Int) : ℚ) = ((d.number : Int) : ℚ) := by exact_mod_cast hnum
  have hvv : ((a.index : Int) : ℚ) / ((a.length : Int) : ℚ) =
      ((d.index : Int) : ℚ) / ((d.length : Int) : ℚ) := by linarith
  rw [div_eq_div_iff halq.ne' hdlq.ne'] at hvv
  have hcross : a.index * d.length = d.index * a.length := by exact_mod_cast hvv
  unfold Epoch.compare
  rw [if_neg (by omega), if_neg (by omega)]
  dsimp only
  rw [if_neg (by omega), if_neg (by omega)]

/-! ## Claim C5 -/

/-- C5: `Epoch.from` (here `Epoch.normalize`) throws for every triple with
non-positive length and, for positive length, returns an epoch satisfying
`length > 0`, `0 ≤ index < length` and `gcd(index, length) = 1` (or
`index = 0`); every epoch produced by `fromHex`, `add` or `sub` satisfies
the same invariant. -/
theorem epoch_normalize_invariants :
    (∀ n i l : Int, l ≤ 0 →
      Epoch.normalize n i l = .error (.message "Non positive Epoch length")) ∧
    (∀ n i l : Int, 0 < l → ∃ e, Epoch.normalize n i l = .ok e ∧ e.normalized) ∧
    (∀ (v : Nat) (e : Epoch), Epoch.fromHex v = .ok e → e.normalized) ∧
    (∀ a b : Epoch, a.normalized → b.normalized →
      ∃ c, a.add b = .ok c ∧ c.normalized) ∧
    (∀ (a : Epoch) (n i l : Int), a.normalized → 0 < l →
      ∃ c, a.sub n i l = .ok c ∧ c.normalized) := by
  refine ⟨normalize_err, ?_, ?_, ?_, ?_⟩
  · intro n i l hl
    obtain ⟨e, he, hn, _⟩ := normalize_spec n i l hl
    exact ⟨e, he, hn⟩
  · intro v e he
    unfold Epoch.fromHex at he
    by_cases hl : (0 : Int) < Int.ofNat (v / 2 ^ 40 % 2 ^ 16)
    · obtain ⟨e', he', hn, _⟩ := normalize_spec (Int.ofNat (v % 2 ^ 24))
        (Int.ofNat (v / 2 ^ 24 % 2 ^ 16)) (Int.ofNat (v / 2 ^ 40 % 2 ^ 16)) hl
      rw [he'] at he
      obtain rfl : e' = e := by simpa using he
      exact hn
    · rw [normalize_err _ _ _ (by omega)] at he
      simp at he
  · intro a b ha hb
    obtain ⟨c, hc, hn, _⟩ := add_spec a b ha hb
    exact ⟨c, hc, hn⟩
  · intro a n i l ha hl
    obtain ⟨c, hc, hn, _⟩ := sub_spec a ha n i l hl
    exact ⟨c, hc, hn⟩

/-- Witness for C5 at concrete inputs: zero length throws; the borrow
example normalizes to a normalized epoch; adding `1 1/2` and `0 1/3`
produces a normalized epoch. -/
theorem epoch_normalize_invariants_witness :
    Epoch.normalize 0 0 0 = .error (.message "Non positive Epoch length") ∧
    (∃ e, Epoch.normalize 100 (-5) 10 = .ok e ∧ e.normalized) ∧
    (∃ c, Epoch.add ⟨1, 1, 2⟩ ⟨0, 1, 3⟩ = .ok c ∧ c.normalized) :=
  ⟨epoch_normalize_invariants.1 0 0 0 (by decide),
   epoch_normalize_invariants.2.1 100 (-5) 10 (by decide),
   epoch_normalize_invariants.2.2.2.1 ⟨1, 1, 2⟩ ⟨0, 1, 3⟩ (by decide) (by decide)⟩

/-! ## Claim C6 -/

/-- C6: for all normalized epochs `a` and `b`, adding `b` and then
subtracting `b` yields an epoch that compares equal to `a`:
`compare(a, a.add(b).sub(b)) = 0`. -/
theorem epoch_add_sub_roundtrip (a b c d : Epoch) (ha : a.normalized)
    (hb : b.normalized) (h1 : a.add b = .ok c)
    (h2 : c.sub b.number b.index b.length = .ok d) :
    a.compare d = 0 := by
  obtain ⟨c', hc', hcn, hcv⟩ := add_spec a b ha hb
  rw [h1] at hc'
  obtain rfl : c = c' := by simpa using hc'
  obtain ⟨d', hd', hdn, hdv⟩ := sub_spec c hcn b.number b.index b.length hb.1
  rw [h2] at hd'
  obtain rfl : d = d' := by simpa using hd'
  refine compare_eq_of_val_eq a d ha hdn ?_
  rw [hdv, hcv]
  unfold Epoch.val
  ring

/-- Witness for C6 at a concrete instance: `(1 1/2) + (0 1/3) = 1 5/6`,
subtracting `0 1/3` gives back `1 1/2`, which compares equal to the
original. -/
theorem epoch_add_sub_roundtrip_witness :
    Epoch.add ⟨1, 1, 2⟩ ⟨0, 1, 3⟩ = .ok ⟨1, 5, 6⟩ ∧
    Epoch.sub ⟨1, 5, 6⟩ 0 1 3 = .ok ⟨1, 1, 2⟩ ∧
    Epoch.compare ⟨1, 1, 2⟩ ⟨1, 1, 2⟩ = 0 :=
  ⟨rfl, rfl,
   epoch_add_sub_roundtrip ⟨1, 1, 2⟩ ⟨0, 1, 3⟩ ⟨1, 5, 6⟩ ⟨1, 1, 2⟩
     (by decide) (by decide) rfl rfl⟩
